import Mathlib

/-!
Verification of the contact-deduplication core of `dedupe.js`.

The JavaScript source is shallowly embedded: JS strings become `String`
(`null`-able string values become `Option String`), the float threshold
comparisons of the similarity metric become exact integer
cross-multiplications (exact for the operands arising here), and the
stateful merge loops become structurally recursive state-passing
functions.  JS truthiness of a string-or-null value (`null` and `""`
are the only falsy cases that can arise) is modelled by `jsTruthy`.
-/

/-- The set matched by the JS regex class `\s`
(whitespace and BOM code points). -/
def jsWhitespace (c : Char) : Bool :=
  decide (c.toNat = 9 ∨ c.toNat = 10 ∨ c.toNat = 11 ∨ c.toNat = 12 ∨ c.toNat = 13 ∨
    c.toNat = 32 ∨ c.toNat = 160 ∨ c.toNat = 5760 ∨
    (8192 ≤ c.toNat ∧ c.toNat ≤ 8202) ∨ c.toNat = 8232 ∨ c.toNat = 8233 ∨
    c.toNat = 8239 ∨ c.toNat = 8287 ∨ c.toNat = 12288 ∨ c.toNat = 65279)

/-- The set matched by the JS regex class `[a-zA-Z]`. -/
def isAsciiLetter (c : Char) : Bool :=
  decide ((65 ≤ c.toNat ∧ c.toNat ≤ 90) ∨ (97 ≤ c.toNat ∧ c.toNat ≤ 122))

/-- One character step of `name.replace(/[^a-zA-Z\s]/g, ' ')`:
characters that are neither ASCII letters nor `\s` become a space. -/
def cleanChar (c : Char) : Char :=
  if isAsciiLetter c || jsWhitespace c then c else ' '

/-- One character of `.toLowerCase()`.  After the replace step only ASCII
letters and `\s` characters remain, on which Unicode lowercasing is
exactly ASCII lowercasing. -/
def lowerChar (c : Char) : Char :=
  if 65 ≤ c.toNat ∧ c.toNat ≤ 90 then Char.ofNat (c.toNat + 32) else c

/-- Worker for `splitWords`: `cur` is the (reversed) word being read. -/
def splitWordsGo (cur : List Char) : List Char → List (List Char)
  | [] => if cur = [] then [] else [cur.reverse]
  | c :: cs =>
    if jsWhitespace c then
      if cur = [] then splitWordsGo [] cs else cur.reverse :: splitWordsGo [] cs
    else splitWordsGo (c :: cur) cs

/-- `s.split(/\s+/)` followed by dropping empty fragments.  The JS split
can produce a leading/trailing `""` fragment; the `.filter(part =>
part.length > 0)` of `normalizeName` (and the `w.length > 2` filter of
the similarity code) drops those, so word extraction is an equivalent
embedding of split-then-filter. -/
def splitWords (l : List Char) : List (List Char) :=
  splitWordsGo [] l

/-- `.join(' ')` on the list of words. -/
def joinWords : List (List Char) → List Char
  | [] => []
  | [w] => w
  | w :: w' :: ws => w ++ ' ' :: joinWords (w' :: ws)

/-- `.trim()`: remove leading and trailing JS whitespace. -/
def jsTrimChars (l : List Char) : List Char :=
  ((l.dropWhile jsWhitespace).reverse.dropWhile jsWhitespace).reverse

/-- The string pipeline of `normalizeName` (dedupe.js 89–95), applied to a
truthy (non-empty) string: replace non-letters by spaces, lowercase,
split on whitespace, drop empty parts, rejoin with single spaces, trim. -/
def normalizeNameStr (s : String) : String :=
  ⟨jsTrimChars (joinWords (splitWords ((s.toList.map cleanChar).map lowerChar)))⟩

/-- `normalizeName` (dedupe.js 86–96).  The argument is a JS
string-or-null value; `!name` is true exactly for `null` and `""`. -/
def normalizeName (name : Option String) : Option String :=
  match name with
  | none => none
  | some s => if s = "" then none else some (normalizeNameStr s)

/-- `extractPhone` (dedupe.js 71–84). -/
def extractPhone (phoneStr : String) : Option String :=
  if phoneStr = "" then none
  else
    let cleaned := phoneStr.toList.filter (fun c => c.isDigit)
    if cleaned.length ≥ 10 then
      if cleaned.take 2 = ['9', '1'] ∧ cleaned.length ≥ 12 then
        some ⟨cleaned.take 12⟩
      else
        some ⟨cleaned.drop (cleaned.length - 10)⟩
    else none

/-- Modelled from the spec sentence of claim C7 (the claim's own wording,
for comparison with the source-translated `extractPhone`): strip every
non-digit; fewer than 10 digits → null; starts with `91` and has at
least 12 digits → first 12; otherwise → last 10. -/
def extractPhoneSpec (phoneStr : String) : Option String :=
  let d := phoneStr.toList.filter (fun c => c.isDigit)
  if d.length < 10 then none
  else if d.take 2 = ['9', '1'] ∧ d.length ≥ 12 then some ⟨d.take 12⟩
  else some ⟨d.drop (d.length - 10)⟩

/-- One inner row pass of the `levenshteinDistance` DP matrix
(dedupe.js 401–410).  `pdiag :: prest` is the previous row from the
diagonal cell onwards, `left` is the value just written in this row. -/
def levRow (c2 : Char) : List Char → List Nat → Nat → List Nat
  | [], _, _ => []
  | _ :: _, [], _ => []
  | c1 :: cs, pdiag :: prest, left =>
    let v := min (prest.headD 0 + 1)
      (min (left + 1) (pdiag + (if c1 = c2 then 0 else 1)))
    v :: levRow c2 cs prest v

/-- The outer row loop of `levenshteinDistance`: `row` is
`matrix[j-1]`, and row `j` is `j` followed by the `levRow` cells. -/
def levRows (s1 : List Char) : List Char → List Nat → Nat → List Nat
  | [], row, _ => row
  | c2 :: rest, row, j => levRows s1 rest (j :: levRow c2 s1 row j) (j + 1)

/-- `levenshteinDistance` (dedupe.js 395–413): classic DP edit distance;
the result is the last cell of the final row. -/
def levenshteinDistance (str1 str2 : String) : Nat :=
  (levRows str1.toList str2.toList (List.range (str1.length + 1)) 1).getLastD 0

/-- `getLevenshteinSimilarity(str1, str2) >= num/den` (dedupe.js 385–393
together with the comparison at its call site).  The JS code compares
the IEEE double `(longer.length − distance) / longer.length` against a
double threshold; for the integer operands arising here (string lengths)
the double comparison agrees exactly with the rational comparison,
because either the two rationals are equal (then both sides round to the
same double) or they differ by at least `1/(longer.length · den)`, far
above double rounding error.  The rational comparison is embedded by
cross-multiplication; the truncated `Nat` subtraction is harmless since
the edit distance never exceeds `longer.length` (and a clamped `0`
compares below any positive threshold just as a negative value would). -/
def levenshteinSimilarityGe (str1 str2 : String) (num den : Nat) : Bool :=
  let longer := if str1.length > str2.length then str1 else str2
  let shorter := if str1.length > str2.length then str2 else str1
  if longer.length = 0 then decide (num ≤ den)
  else decide (num * longer.length ≤ den * (longer.length - levenshteinDistance longer shorter))

/-- The significant words of a name: `name.split(/\s+/).filter(w =>
w.length > 2)` (dedupe.js 364–365, 578, 608). -/
def sigWords (s : String) : List String :=
  ((splitWords s.toList).map (fun w => (⟨w⟩ : String))).filter (fun w => w.length > 2)

/-- The matching-word count of `areNamesSimilar` (dedupe.js 370–378):
a word of `words1` counts once if any word of `words2` has Levenshtein
similarity at least 0.8 (= 4/5). -/
def matchingWords (words1 words2 : List String) : Nat :=
  (words1.filter (fun w1 =>
    words2.any (fun w2 => levenshteinSimilarityGe w1 w2 4 5))).length

/-- `areNamesSimilar` (dedupe.js 357–383).  The caller-supplied float
threshold is embedded as the exact fraction `tnum/tden`, and the final
float comparison `similarity >= threshold` as a cross-multiplied integer
comparison (exact for these operands, see `levenshteinSimilarityGe`).
`!name1 || !name2` is true for `null` and `""`; the `null` case is
folded into `""` (both are falsy and the value is not otherwise used). -/
def areNamesSimilar (name1 name2 : String) (tnum tden : Nat) : Bool :=
  if name1 = "" ∨ name2 = "" then false
  else if name1 = name2 then true
  else
    let words1 := sigWords name1
    let words2 := sigWords name2
    if words1.length = 0 ∨ words2.length = 0 then false
    else decide (tnum * (words1.length + words2.length) ≤ tden * (2 * matchingWords words1 words2))

/-- A `CandidateRecord` as produced by the exact-key SQL phase
(dedupe.js 473–479): three display-name slots carrying the sentinel
`"N/A"` when absent, and nullable canonical email and phone. -/
structure Contact where
  linkedin_name : String
  phonebook_name : String
  email_name : String
  email : Option String
  phone : Option String
deriving DecidableEq, Repr, Inhabited

/-- JS truthiness of a string-or-null field: `null` and `""` are falsy. -/
def jsTruthy (x : Option String) : Bool :=
  match x with
  | none => false
  | some s => decide (s ≠ "")

/-- `getNameForComparison` (dedupe.js 562–567). -/
def getNameForComparison (contact : Contact) : Option String :=
  if contact.linkedin_name ≠ "N/A" then some contact.linkedin_name
  else if contact.phonebook_name ≠ "N/A" then some contact.phonebook_name
  else if contact.email_name ≠ "N/A" then some contact.email_name
  else none

/-- The comparison name as a plain string, with `""` standing for the JS
`null` (every use of the returned value is a truthiness test followed by
string operations, on which `null` and `""` behave identically). -/
def compName (contact : Contact) : String :=
  (getNameForComparison contact).getD ""

/-- `contacts[j]` on the candidate list. -/
def getContact (contacts : List Contact) (j : Nat) : Contact :=
  contacts.getD j default

/-- The merge assignments of dedupe.js 642–648 (identical to 546–550):
each non-`"N/A"` name slot of the candidate is written over the current
record's slot, and an absent (falsy) email/phone on the current record
is backfilled from the candidate. -/
def foldInContact (current candidate : Contact) : Contact :=
  let c1 := if candidate.linkedin_name ≠ "N/A" then
    { current with linkedin_name := candidate.linkedin_name } else current
  let c2 := if candidate.phonebook_name ≠ "N/A" then
    { c1 with phonebook_name := candidate.phonebook_name } else c1
  let c3 := if candidate.email_name ≠ "N/A" then
    { c2 with email_name := candidate.email_name } else c2
  let c4 := if jsTruthy c3.email = false ∧ jsTruthy candidate.email = true then
    { c3 with email := candidate.email } else c3
  if jsTruthy c4.phone = false ∧ jsTruthy candidate.phone = true then
    { c4 with phone := candidate.phone } else c4

/-- The significant words of a contact's normalized comparison name, used
to build the inverted index (dedupe.js 574–588); a contact whose
comparison name is falsy contributes no words. -/
def contactSigWords (contact : Contact) : List String :=
  if compName contact = "" then [] else sigWords (normalizeNameStr (compName contact))

/-- The posting list of a word: the indices (in ascending = insertion
order) of contacts whose comparison name contains that significant word
(dedupe.js 581–586).  Duplicate pushes for a repeated word in one name
are omitted; they are invisible through the deduplicating `Set` that
consumes the lists. -/
def postingList (contacts : List Contact) (w : String) : List Nat :=
  (List.range contacts.length).filter (fun k => decide (w ∈ contactSigWords (getContact contacts k)))

/-- One step of building the `candidates` Set (dedupe.js 612–620): an
index is appended if it is not the current index, not processed, and not
already collected. -/
def addCand (i : Nat) (processed : List Nat) (acc : List Nat) (j : Nat) : List Nat :=
  if j ≠ i ∧ j ∉ processed ∧ j ∉ acc then acc ++ [j] else acc

/-- The `candidates` Set for the current record, in Set insertion order:
the union of the posting lists of the current comparison name's words
(dedupe.js 610–620). -/
def collectCands (contacts : List Contact) (words : List String) (i : Nat)
    (processed : List Nat) : List Nat :=
  words.foldl (fun acc w => (postingList contacts w).foldl (addCand i processed) acc) []

/-- The mutable state of one pass of the candidate loop of
`mergeSimilarContactsFocused` (dedupe.js 623–653): the accumulating
`current` record, the `processed` index set (a list with membership
semantics, mirroring the JS `Set`), the `mergeCount` counter, and a
ghost list `absorbed` recording which indices were folded into `current`
during this outer iteration.  `absorbed` does not influence the
computation. -/
structure MergeState where
  current : Contact
  processed : List Nat
  mergeCount : Nat
  absorbed : List Nat
deriving Repr

/-- The candidate loop of `mergeSimilarContactsFocused`
(dedupe.js 623–653): skip processed indices, skip conflicting hard
identifiers, and otherwise fold in name-similar candidates at
threshold 0.7. -/
def innerLoop (contacts : List Contact) (currentNormalized : String) :
    List Nat → MergeState → MergeState
  | [], st => st
  | j :: rest, st =>
    if j ∈ st.processed then innerLoop contacts currentNormalized rest st
    else if jsTruthy st.current.email = true ∧ jsTruthy (getContact contacts j).email = true ∧
        st.current.email ≠ (getContact contacts j).email then
      innerLoop contacts currentNormalized rest st
    else if jsTruthy st.current.phone = true ∧ jsTruthy (getContact contacts j).phone = true ∧
        st.current.phone ≠ (getContact contacts j).phone then
      innerLoop contacts currentNormalized rest st
    else if compName (getContact contacts j) ≠ "" ∧
        areNamesSimilar currentNormalized (normalizeNameStr (compName (getContact contacts j))) 7 10 = true then
      innerLoop contacts currentNormalized rest
        ⟨foldInContact st.current (getContact contacts j), j :: st.processed,
          st.mergeCount + 1, st.absorbed ++ [j]⟩
    else innerLoop contacts currentNormalized rest st

/-- The state threaded through the outer loop of
`mergeSimilarContactsFocused` (dedupe.js 590–656).  Each `log` entry is
one emitted record together with ghost data: the absorber's input index
and the input indices absorbed into it, in absorption order. -/
structure OuterState where
  processed : List Nat
  log : List (Contact × Nat × List Nat)
  mergeCount : Nat
deriving Repr

/-- The candidate-loop invocation of one outer iteration of
`mergeSimilarContactsFocused` for an unprocessed index `i` whose
comparison name is truthy: normalize the comparison name once, collect
the candidate set from the inverted index, and run the candidate loop
(dedupe.js 607–653). -/
def stepInner (contacts : List Contact) (i : Nat) (st : OuterState) : MergeState :=
  innerLoop contacts (normalizeNameStr (compName (getContact contacts i)))
    (collectCands contacts
      (sigWords (normalizeNameStr (compName (getContact contacts i)))) i
      (i :: st.processed))
    ⟨getContact contacts i, i :: st.processed, st.mergeCount, []⟩

/-- One outer iteration of `mergeSimilarContactsFocused` for an
unprocessed index `i` whose comparison name is truthy: run the candidate
loop and push the accumulated record (dedupe.js 598–655). -/
def stepState (contacts : List Contact) (i : Nat) (st : OuterState) : OuterState :=
  ⟨(stepInner contacts i st).processed,
   st.log ++ [((stepInner contacts i st).current, i, (stepInner contacts i st).absorbed)],
   (stepInner contacts i st).mergeCount⟩

/-- The outer loop of `mergeSimilarContactsFocused` (dedupe.js 595–656)
over the list of remaining input indices. -/
def outerLoop (contacts : List Contact) : List Nat → OuterState → OuterState
  | [], st => st
  | i :: rest, st =>
    if i ∈ st.processed then outerLoop contacts rest st
    else if compName (getContact contacts i) = "" then
      outerLoop contacts rest
        ⟨i :: st.processed, st.log ++ [(getContact contacts i, i, [])], st.mergeCount⟩
    else outerLoop contacts rest (stepState contacts i st)

/-- `mergeSimilarContactsFocused` with its ghost log: the emitted records
in order, each with its absorber index and absorbed indices, plus the
final `mergeCount`. -/
def mergeFocusedLog (contacts : List Contact) : OuterState :=
  outerLoop contacts (List.range contacts.length) ⟨[], [], 0⟩

/-- `mergeSimilarContactsFocused` (dedupe.js 569–667): the emitted
record sequence. -/
def mergeSimilarContactsFocused (contacts : List Contact) : List Contact :=
  (mergeFocusedLog contacts).log.map (fun e => e.1)

/-- The inner loop of the exhaustive `mergeSimilarContacts`
(dedupe.js 528–554): `js` is `[i+1, …, n−1]`.  Unlike the focused pass,
the comparison name of `current` is recomputed inside the loop from the
mutated record. -/
def innerLoopAll (contacts : List Contact) : List Nat → Contact → List Nat → Contact × List Nat
  | [], current, processed => (current, processed)
  | j :: rest, current, processed =>
    if j ∈ processed then innerLoopAll contacts rest current processed
    else if jsTruthy current.email = true ∧ jsTruthy (getContact contacts j).email = true ∧
        current.email ≠ (getContact contacts j).email then
      innerLoopAll contacts rest current processed
    else if jsTruthy current.phone = true ∧ jsTruthy (getContact contacts j).phone = true ∧
        current.phone ≠ (getContact contacts j).phone then
      innerLoopAll contacts rest current processed
    else if compName current ≠ "" ∧ compName (getContact contacts j) ≠ "" ∧
        areNamesSimilar (normalizeNameStr (compName current))
          (normalizeNameStr (compName (getContact contacts j))) 7 10 = true then
      innerLoopAll contacts rest (foldInContact current (getContact contacts j)) (j :: processed)
    else innerLoopAll contacts rest current processed

/-- The outer loop of `mergeSimilarContacts` (dedupe.js 521–557); the
inner loop receives the tail of the ascending index list, i.e.
`[i+1, …, n−1]`. -/
def outerLoopAll (contacts : List Contact) : List Nat → List Nat → List Contact → List Contact
  | [], _, merged => merged
  | i :: rest, processed, merged =>
    if i ∈ processed then outerLoopAll contacts rest processed merged
    else
      let r := innerLoopAll contacts rest (getContact contacts i) (i :: processed)
      outerLoopAll contacts rest r.2 (merged ++ [r.1])

/-- `mergeSimilarContacts` (dedupe.js 517–560): the exhaustive
pairwise merge pass, at the default threshold 0.7. -/
def mergeSimilarContacts (contacts : List Contact) : List Contact :=
  outerLoopAll contacts (List.range contacts.length) [] []

/-- The sort priority score of the final comparator (dedupe.js 497–498):
1 for a professional-network name, else 2 for a phone-book name, else 3. -/
def sortScore (contact : Contact) : Nat :=
  if contact.linkedin_name ≠ "N/A" then 1
  else if contact.phonebook_name ≠ "N/A" then 2
  else 3

/-- The name used for comparison by the final comparator
(dedupe.js 502–503). -/
def sortName (contact : Contact) : String :=
  if contact.linkedin_name ≠ "N/A" then contact.linkedin_name
  else if contact.phonebook_name ≠ "N/A" then contact.phonebook_name
  else contact.email_name

/-- The comparator of the final sort (dedupe.js 496–506) as a boolean
"may precede" relation: score ascending, then name ascending
(`localeCompare` embedded as lexicographic string order). -/
def contactLe (a b : Contact) : Bool :=
  if sortScore a = sortScore b then decide (sortName a ≤ sortName b)
  else decide (sortScore a < sortScore b)

/-- The final sort of `deduplicateContacts` (dedupe.js 496–506):
`Array.prototype.sort` with a consistent comparator produces a sequence
sorted by that comparator; it is embedded as a merge sort by
`contactLe`. -/
def sortContacts (l : List Contact) : List Contact :=
  l.mergeSort contactLe
-- normalization lemma layer (to be appended to Spec2Proof.lean)

/-- A lowercase ASCII letter: the only characters that survive, unchanged,
inside the words of a normalized name. -/
def goodChar (c : Char) : Prop := 97 ≤ c.toNat ∧ c.toNat ≤ 122

theorem goodChar_not_ws {c : Char} (h : goodChar c) : jsWhitespace c = false := by
  simp only [jsWhitespace, decide_eq_false_iff_not]
  obtain ⟨h1, h2⟩ := h
  omega

theorem ws_lowerChar {c : Char} (h : jsWhitespace c = true) : lowerChar c = c := by
  have hn : ¬(65 ≤ c.toNat ∧ c.toNat ≤ 90) := by
    simp only [jsWhitespace, decide_eq_true_eq] at h
    omega
  simp [lowerChar, hn]

theorem cleanChar_of_not_letter {c : Char} (h : isAsciiLetter c = false) :
    jsWhitespace (cleanChar c) = true := by
  by_cases hw : jsWhitespace c = true
  · simp [cleanChar, h, hw]
  · have hw' : jsWhitespace c = false := by simpa using hw
    have hcc : cleanChar c = ' ' := by simp [cleanChar, h, hw']
    rw [hcc]
    decide

theorem char_ofNat_toNat {n : Nat} (h : n < 55296) : (Char.ofNat n).toNat = n := by
  have hv : n.isValidChar := Or.inl h
  simp only [Char.ofNat, hv, dif_pos, Char.ofNatAux, Char.toNat]
  rfl

theorem goodChar_lowerChar_cleanChar (c : Char) :
    goodChar (lowerChar (cleanChar c)) ∨ jsWhitespace (lowerChar (cleanChar c)) = true := by
  by_cases hl : isAsciiLetter c = true
  · have hc : cleanChar c = c := by simp [cleanChar, hl]
    rw [hc]
    simp only [isAsciiLetter, decide_eq_true_eq] at hl
    rcases hl with h | h
    · left
      have hlt : c.toNat + 32 < 55296 := by omega
      simp only [lowerChar, if_pos (by omega : 65 ≤ c.toNat ∧ c.toNat ≤ 90), goodChar,
        char_ofNat_toNat hlt]
      omega
    · left
      have : ¬(65 ≤ c.toNat ∧ c.toNat ≤ 90) := by omega
      simp only [lowerChar, if_neg this, goodChar]
      omega
  · right
    have hw := cleanChar_of_not_letter (by simpa using hl)
    rw [ws_lowerChar hw]
    exact hw

theorem goodChar_fixed {c : Char} (h : goodChar c) : cleanChar c = c ∧ lowerChar c = c := by
  obtain ⟨h1, h2⟩ := h
  constructor
  · have : isAsciiLetter c = true := by
      simp only [isAsciiLetter, decide_eq_true_eq]
      omega
    simp [cleanChar, this]
  · have : ¬(65 ≤ c.toNat ∧ c.toNat ≤ 90) := by omega
    simp [lowerChar, this]

theorem splitWordsGo_chars {P : Char → Prop} :
    ∀ (l cur : List Char), (∀ c ∈ l, P c ∨ jsWhitespace c = true) →
    (∀ c ∈ cur, P c) → ∀ w ∈ splitWordsGo cur l, ∀ c ∈ w, P c := by
  intro l
  induction l with
  | nil =>
    intro cur _ hcur w hw c hc
    by_cases he : cur = []
    · simp [splitWordsGo, he] at hw
    · simp only [splitWordsGo, if_neg he, List.mem_singleton] at hw
      subst hw
      exact hcur c (List.mem_reverse.mp hc)
  | cons c0 cs ih =>
    intro cur hl hcur w hw c hc
    by_cases hw0 : jsWhitespace c0 = true
    · by_cases he : cur = []
      · simp only [splitWordsGo, hw0, if_true, if_pos he] at hw
        exact ih [] (fun x hx => hl x (List.mem_cons_of_mem _ hx)) (by simp) w hw c hc
      · simp only [splitWordsGo, hw0, if_true, if_neg he, List.mem_cons] at hw
        rcases hw with h | h
        · subst h
          exact hcur c (List.mem_reverse.mp hc)
        · exact ih [] (fun x hx => hl x (List.mem_cons_of_mem _ hx)) (by simp) w h c hc
    · simp only [splitWordsGo, hw0, if_false, Bool.false_eq_true] at hw
      have hP0 : P c0 := by
        rcases hl c0 (List.mem_cons_self _ _) with h | h
        · exact h
        · exact absurd h (by simp [hw0])
      refine ih (c0 :: cur) (fun x hx => hl x (List.mem_cons_of_mem _ hx)) ?_ w hw c hc
      intro x hx
      rcases List.mem_cons.mp hx with h | h
      · subst h; exact hP0
      · exact hcur x h

theorem splitWordsGo_nonempty :
    ∀ (l cur : List Char), ∀ w ∈ splitWordsGo cur l, w ≠ [] := by
  intro l
  induction l with
  | nil =>
    intro cur w hw
    by_cases he : cur = []
    · simp [splitWordsGo, he] at hw
    · simp only [splitWordsGo, if_neg he, List.mem_singleton] at hw
      subst hw
      simpa using he
  | cons c0 cs ih =>
    intro cur w hw
    by_cases hw0 : jsWhitespace c0 = true
    · by_cases he : cur = []
      · simp only [splitWordsGo, hw0, if_true, if_pos he] at hw
        exact ih [] w hw
      · simp only [splitWordsGo, hw0, if_true, if_neg he, List.mem_cons] at hw
        rcases hw with h | h
        · subst h; simpa using he
        · exact ih [] w h
    · simp only [splitWordsGo, hw0, if_false, Bool.false_eq_true] at hw
      exact ih (c0 :: cur) w hw

theorem splitWordsGo_word {w : List Char} (hw : ∀ c ∈ w, jsWhitespace c = false) :
    ∀ (cur l : List Char), splitWordsGo cur (w ++ l) = splitWordsGo (w.reverse ++ cur) l := by
  induction w with
  | nil => intro cur l; simp
  | cons c w' ih =>
    intro cur l
    have hc : jsWhitespace c = false := hw c (List.mem_cons_self _ _)
    simp only [List.cons_append, splitWordsGo, hc, Bool.false_eq_true, if_false,
      List.append_eq]
    rw [ih (fun x hx => hw x (List.mem_cons_of_mem _ hx)) (c :: cur) l]
    simp [List.append_assoc]

theorem splitWords_joinWords :
    ∀ (ws : List (List Char)), (∀ w ∈ ws, w ≠ [] ∧ ∀ c ∈ w, jsWhitespace c = false) →
    splitWords (joinWords ws) = ws := by
  intro ws
  induction ws with
  | nil => intro _; rfl
  | cons w tail ih =>
    intro h
    obtain ⟨hne, hcs⟩ := h w (List.mem_cons_self _ _)
    cases tail with
    | nil =>
      show splitWordsGo [] (joinWords [w]) = [w]
      have : joinWords [w] = w ++ [] := by simp [joinWords]
      rw [this, splitWordsGo_word hcs]
      simp only [splitWordsGo, List.append_nil]
      rw [if_neg (by simpa using hne)]
      simp
    | cons v tail' =>
      show splitWordsGo [] (joinWords (w :: v :: tail')) = w :: v :: tail'
      have : joinWords (w :: v :: tail') = w ++ (' ' :: joinWords (v :: tail')) := rfl
      rw [this, splitWordsGo_word hcs]
      simp only [splitWordsGo, List.append_nil]
      rw [if_pos (by decide), if_neg (by simpa using hne)]
      rw [List.reverse_reverse]
      have := ih (fun x hx => h x (List.mem_cons_of_mem _ hx))
      rw [show splitWordsGo [] (joinWords (v :: tail')) = splitWords (joinWords (v :: tail')) from rfl, this]

theorem joinWords_chars :
    ∀ (ws : List (List Char)), (∀ w ∈ ws, ∀ c ∈ w, goodChar c) →
    ∀ c ∈ joinWords ws, goodChar c ∨ c = ' ' := by
  intro ws
  induction ws with
  | nil => intro _ c hc; simp [joinWords] at hc
  | cons w tail ih =>
    intro h c hc
    cases tail with
    | nil =>
      simp only [joinWords] at hc
      exact Or.inl (h w (List.mem_cons_self _ _) c hc)
    | cons v tail' =>
      simp only [joinWords, List.mem_append, List.mem_cons] at hc
      rcases hc with hc | hc | hc
      · exact Or.inl (h w (List.mem_cons_self _ _) c hc)
      · exact Or.inr hc
      · exact ih (fun x hx => h x (List.mem_cons_of_mem _ hx)) c hc

theorem joinWords_first :
    ∀ (ws : List (List Char)), (∀ w ∈ ws, w ≠ [] ∧ ∀ c ∈ w, goodChar c) → ws ≠ [] →
    ∃ c l', joinWords ws = c :: l' ∧ goodChar c := by
  intro ws h hne
  cases ws with
  | nil => exact absurd rfl hne
  | cons w tail =>
    obtain ⟨hwne, hwc⟩ := h w (List.mem_cons_self _ _)
    cases w with
    | nil => exact absurd rfl hwne
    | cons c0 w0 =>
      cases tail with
      | nil => exact ⟨c0, w0, rfl, hwc c0 (List.mem_cons_self _ _)⟩
      | cons v tail' =>
        exact ⟨c0, w0 ++ ' ' :: joinWords (v :: tail'), rfl, hwc c0 (List.mem_cons_self _ _)⟩

theorem joinWords_last :
    ∀ (ws : List (List Char)), (∀ w ∈ ws, w ≠ [] ∧ ∀ c ∈ w, goodChar c) → ws ≠ [] →
    ∃ l' c, joinWords ws = l' ++ [c] ∧ goodChar c := by
  intro ws
  induction ws with
  | nil => intro _ hne; exact absurd rfl hne
  | cons w tail ih =>
    intro h _
    obtain ⟨hwne, hwc⟩ := h w (List.mem_cons_self _ _)
    cases tail with
    | nil =>
      refine ⟨w.dropLast, w.getLast hwne, ?_, hwc _ (List.getLast_mem hwne)⟩
      simp [joinWords, List.dropLast_append_getLast hwne]
    | cons v tail' =>
      obtain ⟨l', c, hj, hc⟩ := ih (fun x hx => h x (List.mem_cons_of_mem _ hx)) (by simp)
      refine ⟨w ++ ' ' :: l', c, ?_, hc⟩
      show w ++ ' ' :: joinWords (v :: tail') = (w ++ ' ' :: l') ++ [c]
      rw [hj]
      simp

theorem jsTrimChars_joinWords
    (ws : List (List Char)) (h : ∀ w ∈ ws, w ≠ [] ∧ ∀ c ∈ w, goodChar c) :
    jsTrimChars (joinWords ws) = joinWords ws := by
  cases ws with
  | nil => rfl
  | cons w tail =>
    obtain ⟨c0, l0, hfirst, hc0⟩ := joinWords_first (w :: tail) h (by simp)
    obtain ⟨l1, c1, hlast, hc1⟩ := joinWords_last (w :: tail) h (by simp)
    have h1 : (joinWords (w :: tail)).dropWhile jsWhitespace = joinWords (w :: tail) := by
      rw [hfirst, List.dropWhile_cons_of_neg (by simp [goodChar_not_ws hc0])]
    have h2 : (joinWords (w :: tail)).reverse.dropWhile jsWhitespace
        = (joinWords (w :: tail)).reverse := by
      rw [hlast, List.reverse_append]
      simp only [List.reverse_singleton, List.singleton_append]
      rw [List.dropWhile_cons_of_neg (by simp [goodChar_not_ws hc1])]
    unfold jsTrimChars
    rw [h1, h2, List.reverse_reverse]

theorem map_fixed {l : List Char} {f : Char → Char} (h : ∀ c ∈ l, f c = c) :
    l.map f = l := by
  induction l with
  | nil => rfl
  | cons c cs ih =>
    simp only [List.map_cons, h c (List.mem_cons_self _ _), List.cons.injEq, true_and]
    exact ih (fun x hx => h x (List.mem_cons_of_mem _ hx))

theorem normalizeNameStr_words (s : String) :
    (∀ w ∈ splitWords ((s.toList.map cleanChar).map lowerChar), w ≠ [] ∧ ∀ c ∈ w, goodChar c)
    ∧ normalizeNameStr s
      = ⟨joinWords (splitWords ((s.toList.map cleanChar).map lowerChar))⟩ := by
  have hchars : ∀ c ∈ (s.toList.map cleanChar).map lowerChar,
      goodChar c ∨ jsWhitespace c = true := by
    intro c hc
    rw [List.map_map] at hc
    obtain ⟨a, _, rfl⟩ := List.mem_map.mp hc
    exact goodChar_lowerChar_cleanChar a
  have hgood : ∀ w ∈ splitWords ((s.toList.map cleanChar).map lowerChar),
      w ≠ [] ∧ ∀ c ∈ w, goodChar c := by
    intro w hw
    exact ⟨splitWordsGo_nonempty _ [] w hw,
      splitWordsGo_chars _ [] hchars (by simp) w hw⟩
  refine ⟨hgood, ?_⟩
  unfold normalizeNameStr
  rw [jsTrimChars_joinWords _ hgood]

theorem normalizeNameStr_idem (s : String) :
    normalizeNameStr (normalizeNameStr s) = normalizeNameStr s := by
  obtain ⟨hgood, heq⟩ := normalizeNameStr_words s
  rw [heq]
  generalize hws : splitWords ((s.toList.map cleanChar).map lowerChar) = ws at hgood ⊢
  unfold normalizeNameStr
  have htl : (⟨joinWords ws⟩ : String).toList = joinWords ws := rfl
  rw [htl]
  have hfix1 : (joinWords ws).map cleanChar = joinWords ws := by
    refine map_fixed ?_
    intro c hc
    rcases joinWords_chars ws (fun w hw => (hgood w hw).2) c hc with h | h
    · exact (goodChar_fixed h).1
    · subst h; decide
  have hfix2 : (joinWords ws).map lowerChar = joinWords ws := by
    refine map_fixed ?_
    intro c hc
    rcases joinWords_chars ws (fun w hw => (hgood w hw).2) c hc with h | h
    · exact (goodChar_fixed h).2
    · subst h; decide
  rw [hfix1, hfix2]
  rw [splitWords_joinWords ws (fun w hw =>
    ⟨(hgood w hw).1, fun c hc => goodChar_not_ws ((hgood w hw).2 c hc)⟩)]
  rw [jsTrimChars_joinWords ws hgood]

theorem splitWordsGo_all_ws :
    ∀ (l : List Char), (∀ c ∈ l, jsWhitespace c = true) → splitWordsGo [] l = [] := by
  intro l
  induction l with
  | nil => intro _; rfl
  | cons c cs ih =>
    intro h
    have hc : jsWhitespace c = true := h c (List.mem_cons_self _ _)
    simp only [splitWordsGo, hc, if_true, if_pos rfl]
    exact ih (fun x hx => h x (List.mem_cons_of_mem _ hx))

/-- Claim C4 counterexample: for the normalized names "abhijit hazari"
and "cg abhijit hazari", the claim asserts similar=false at threshold
0.95 and a coefficient of 0.8; in the code "cg" (length 2) is not a
significant token, the coefficient is 2·2/(2+2) = 1 (≠ 4/5), and the
similarity at threshold 0.95 evaluates to true. -/
theorem similarity_boundary_counterexample :
    areNamesSimilar "abhijit hazari" "cg abhijit hazari" 19 20 = true ∧
    2 * matchingWords (sigWords "abhijit hazari") (sigWords "cg abhijit hazari")
      = 1 * ((sigWords "abhijit hazari").length + (sigWords "cg abhijit hazari").length) ∧
    ¬ 5 * (2 * matchingWords (sigWords "abhijit hazari") (sigWords "cg abhijit hazari"))
      = 4 * ((sigWords "abhijit hazari").length + (sigWords "cg abhijit hazari").length) := by
  refine ⟨by decide, by decide, by decide⟩

/-- Claim C4 (amended): for the normalized names "abhijit hazari" and
"cg abhijit hazari" the word-overlap similarity evaluates to
similar=true at threshold 0.7; the token "cg" has length 2 and is not a
significant token, so both names contribute the significant tokens
["abhijit", "hazari"], the computed coefficient is 2·2/(2+2) = 1, and
the similarity still evaluates to true at threshold 0.95. -/
theorem similarity_boundary :
    areNamesSimilar "abhijit hazari" "cg abhijit hazari" 7 10 = true ∧
    sigWords (normalizeNameStr "abhijit hazari") = ["abhijit", "hazari"] ∧
    sigWords (normalizeNameStr "cg abhijit hazari") = ["abhijit", "hazari"] ∧
    2 * matchingWords (sigWords "abhijit hazari") (sigWords "cg abhijit hazari")
      = 1 * ((sigWords "abhijit hazari").length + (sigWords "cg abhijit hazari").length) ∧
    areNamesSimilar "abhijit hazari" "cg abhijit hazari" 19 20 = true := by
  refine ⟨by decide, by decide, by decide, by decide, by decide⟩

/-- Claim C5 counterexample: name normalization is not idempotent as an
operation on JS string-or-null values: the non-empty letterless string
"123" normalizes to the empty string `""`, but `""` is falsy, so a
second application returns `null` instead of `""`. -/
theorem normalizeName_not_idempotent :
    normalizeName (normalizeName (some "123")) = none ∧
    normalizeName (some "123") = some "" ∧
    ¬ normalizeName (normalizeName (some "123")) = normalizeName (some "123") := by
  refine ⟨by decide, by decide, by decide⟩

/-- Claim C5 (amended): the normalization pipeline on strings is
idempotent, `normalizeNameStr (normalizeNameStr x) = normalizeNameStr x`
for every string `x`; consequently the JS function `normalizeName` is
idempotent on every input whose normalization is non-empty.  (The only
failures are non-empty strings without ASCII letters, which normalize to
`""` once and to `null` twice.) -/
theorem normalizeName_idempotent (x : String) :
    normalizeNameStr (normalizeNameStr x) = normalizeNameStr x ∧
    (normalizeNameStr x ≠ "" →
      normalizeName (normalizeName (some x)) = normalizeName (some x)) := by
  refine ⟨normalizeNameStr_idem x, ?_⟩
  intro hne
  have hx : x ≠ "" := by
    intro h
    subst h
    exact hne rfl
  simp only [normalizeName, if_neg hx, if_neg hne]
  rw [normalizeNameStr_idem x]

/-- Witness for `normalizeName_idempotent` at `x = "John Doe"`. -/
theorem normalizeName_idempotent_witness :
    normalizeName (normalizeName (some "John Doe")) = normalizeName (some "John Doe") :=
  (normalizeName_idempotent "John Doe").2 (by decide)

/-- Claim C6 counterexample: `normalizeName` on the non-empty letterless
input "123" returns the empty string `""`, not `null`. -/
theorem normalizeName_letterless_counterexample :
    normalizeName (some "123") = some "" ∧ (some "" : Option String) ≠ none := by
  refine ⟨by decide, by decide⟩

/-- Claim C6 (amended): `normalizeName` returns `null` for absent input
and for the empty string; for every *non-empty* input containing no
ASCII letters it does not return `null` but the empty string `""`. -/
theorem normalizeName_empty_cases :
    normalizeName none = none ∧
    normalizeName (some "") = none ∧
    ∀ x : String, x ≠ "" → (∀ c ∈ x.toList, isAsciiLetter c = false) →
      normalizeName (some x) = some "" := by
  refine ⟨rfl, rfl, ?_⟩
  intro x hx hcs
  have hall : ∀ c ∈ (x.toList.map cleanChar).map lowerChar, jsWhitespace c = true := by
    intro c hc
    obtain ⟨b, hb, rfl⟩ := List.mem_map.mp hc
    obtain ⟨a, ha, rfl⟩ := List.mem_map.mp hb
    have hw := cleanChar_of_not_letter (hcs a ha)
    rw [ws_lowerChar hw]
    exact hw
  have hsplit : splitWords ((x.toList.map cleanChar).map lowerChar) = [] :=
    splitWordsGo_all_ws _ hall
  simp only [normalizeName, if_neg hx, Option.some.injEq]
  unfold normalizeNameStr
  rw [show splitWords ((x.toList.map cleanChar).map lowerChar)
      = splitWordsGo [] ((x.toList.map cleanChar).map lowerChar) from rfl] at hsplit
  unfold splitWords
  rw [hsplit]
  rfl

/-- Witness for `normalizeName_empty_cases` at `x = "123"`. -/
theorem normalizeName_empty_cases_witness :
    normalizeName (some "123") = some "" :=
  normalizeName_empty_cases.2.2 "123" (by decide) (by decide)

/-- Claim C7: `extractPhone` agrees with the claim's description
(`extractPhoneSpec`, stated from the claim's words) on every input
string, and takes the three stated values on the three stated inputs. -/
theorem extractPhone_correct :
    (∀ s : String, extractPhone s = extractPhoneSpec s) ∧
    extractPhone "+91-98765-43210" = some "919876543210" ∧
    extractPhone "(212) 555-0100" = some "2125550100" ∧
    extractPhone "12345" = none := by
  refine ⟨?_, by decide, by decide, by decide⟩
  intro s
  by_cases hs : s = ""
  · subst hs; decide
  · simp only [extractPhone, extractPhoneSpec, if_neg hs]
    by_cases h10 : (List.filter (fun c => c.isDigit) s.toList).length ≥ 10
    · rw [if_pos h10,
        if_neg (show ¬ (List.filter (fun c => c.isDigit) s.toList).length < 10 by omega)]
    · rw [if_neg h10,
        if_pos (show (List.filter (fun c => c.isDigit) s.toList).length < 10 by omega)]

theorem foldInContact_linkedin (cur cand : Contact) :
    (foldInContact cur cand).linkedin_name
      = if cand.linkedin_name ≠ "N/A" then cand.linkedin_name else cur.linkedin_name := by
  simp only [foldInContact]
  split_ifs <;> rfl

theorem foldInContact_phonebook (cur cand : Contact) :
    (foldInContact cur cand).phonebook_name
      = if cand.phonebook_name ≠ "N/A" then cand.phonebook_name else cur.phonebook_name := by
  simp only [foldInContact]
  split_ifs <;> rfl

theorem foldInContact_email_name (cur cand : Contact) :
    (foldInContact cur cand).email_name
      = if cand.email_name ≠ "N/A" then cand.email_name else cur.email_name := by
  simp only [foldInContact]
  split_ifs <;> rfl

theorem foldInContact_email (cur cand : Contact) :
    (foldInContact cur cand).email
      = if jsTruthy cur.email = false ∧ jsTruthy cand.email = true then cand.email
        else cur.email := by
  simp only [foldInContact]
  split_ifs <;> rfl

theorem foldInContact_phone (cur cand : Contact) :
    (foldInContact cur cand).phone
      = if jsTruthy cur.phone = false ∧ jsTruthy cand.phone = true then cand.phone
        else cur.phone := by
  simp only [foldInContact]
  split_ifs <;> rfl

theorem jsTruthy_eq_of_truthy {a b : Option String} (h : a = b) (hb : jsTruthy b = true) :
    jsTruthy a = true := h ▸ hb

theorem postingList_mem {contacts : List Contact} {w : String} {j : Nat} :
    j ∈ postingList contacts w
      ↔ j < contacts.length ∧ w ∈ contactSigWords (getContact contacts j) := by
  simp [postingList, List.mem_filter, List.mem_range]

theorem foldl_addCand_mem {i : Nat} {p : List Nat} :
    ∀ (l acc : List Nat) (j : Nat), j ∈ l.foldl (addCand i p) acc → j ∈ acc ∨ j ∈ l := by
  intro l
  induction l with
  | nil => intro acc j h; exact Or.inl h
  | cons x xs ih =>
    intro acc j h
    rcases ih (addCand i p acc x) j h with h' | h'
    · unfold addCand at h'
      split_ifs at h' with hc
      · rcases List.mem_append.mp h' with h'' | h''
        · exact Or.inl h''
        · simp only [List.mem_singleton] at h''
          exact Or.inr (h'' ▸ List.mem_cons_self _ _)
      · exact Or.inl h'
    · exact Or.inr (List.mem_cons_of_mem _ h')

theorem collectCands_mem_aux {contacts : List Contact} {i : Nat} {p : List Nat} :
    ∀ (ws : List String) (acc : List Nat) (j : Nat),
      j ∈ ws.foldl (fun acc w => (postingList contacts w).foldl (addCand i p) acc) acc →
      j ∈ acc ∨ ∃ w ∈ ws, j ∈ postingList contacts w := by
  intro ws
  induction ws with
  | nil => intro acc j h; exact Or.inl h
  | cons w ws' ih =>
    intro acc j h
    rcases ih _ j h with h' | h'
    · rcases foldl_addCand_mem _ _ _ h' with h'' | h''
      · exact Or.inl h''
      · exact Or.inr ⟨w, List.mem_cons_self _ _, h''⟩
    · obtain ⟨w', hw', hj⟩ := h'
      exact Or.inr ⟨w', List.mem_cons_of_mem _ hw', hj⟩

theorem collectCands_spec {contacts : List Contact} {ws : List String} {i : Nat}
    {p : List Nat} {j : Nat} (h : j ∈ collectCands contacts ws i p) :
    j < contacts.length ∧ ∃ w ∈ ws, w ∈ contactSigWords (getContact contacts j) := by
  rcases collectCands_mem_aux ws [] j h with h' | h'
  · simp at h'
  · obtain ⟨w, hw, hj⟩ := h'
    obtain ⟨hlt, hmem⟩ := postingList_mem.mp hj
    exact ⟨hlt, w, hw, hmem⟩

theorem compName_na {c : Contact} (hl : c.linkedin_name = "N/A")
    (hp : c.phonebook_name = "N/A") (he : c.email_name = "N/A") : compName c = "" := by
  simp [compName, getNameForComparison, hl, hp, he]

theorem filter_not_mem_cons_of_not_mem (p : List Nat) {rest : List Nat} {j : Nat}
    (hj : j ∉ rest) :
    rest.filter (fun x => decide (x ∉ j :: p)) = rest.filter (fun x => decide (x ∉ p)) := by
  refine List.filter_congr ?_
  intro x hx
  have hxj : x ≠ j := fun h => hj (h ▸ hx)
  simp [List.mem_cons, hxj]

theorem filter_not_mem_cons_length {rest : List Nat} :
    ∀ (p : List Nat) {j : Nat}, j ∈ rest → j ∉ p → rest.Nodup →
    (rest.filter (fun x => decide (x ∉ p))).length
      = (rest.filter (fun x => decide (x ∉ j :: p))).length + 1 := by
  induction rest with
  | nil => intro p j hj _ _; simp at hj
  | cons a rest' ih =>
    intro p j hj hjp hnd
    obtain ⟨hanr, hnd'⟩ := List.nodup_cons.mp hnd
    by_cases haj : a = j
    · subst haj
      rw [List.filter_cons, List.filter_cons]
      rw [if_pos (by simpa using hjp), if_neg (by simp)]
      rw [filter_not_mem_cons_of_not_mem p hanr]
      simp
    · have hj' : j ∈ rest' := by
        rcases List.mem_cons.mp hj with h | h
        · exact absurd h.symm haj
        · exact h
      rw [List.filter_cons, List.filter_cons]
      by_cases hap : a ∈ p
      · rw [if_neg (by simpa using hap), if_neg (by simp [List.mem_cons, hap])]
        exact ih p hj' hjp hnd'
      · rw [if_pos (by simpa using hap), if_pos (by simp [List.mem_cons, haj, hap])]
        simpa using ih p hj' hjp hnd'

theorem innerLoop_processed_mono (contacts : List Contact) (cn : String) :
    ∀ (cands : List Nat) (st : MergeState) (x : Nat), x ∈ st.processed →
    x ∈ (innerLoop contacts cn cands st).processed := by
  intro cands
  induction cands with
  | nil => intro st x hx; simpa [innerLoop] using hx
  | cons c cs ih =>
    intro st x hx
    simp only [innerLoop]
    split_ifs
    · exact ih st x hx
    · exact ih st x hx
    · exact ih st x hx
    · exact ih _ x (List.mem_cons_of_mem _ hx)
    · exact ih st x hx

theorem innerLoop_processed_src (contacts : List Contact) (cn : String) :
    ∀ (cands : List Nat) (st : MergeState) (x : Nat),
    x ∈ (innerLoop contacts cn cands st).processed →
    x ∈ st.processed ∨ compName (getContact contacts x) ≠ "" := by
  intro cands
  induction cands with
  | nil => intro st x hx; simp only [innerLoop] at hx; exact Or.inl hx
  | cons c cs ih =>
    intro st x hx
    simp only [innerLoop] at hx
    split_ifs at hx with h1 h2 h3 h4
    · exact ih st x hx
    · exact ih st x hx
    · exact ih st x hx
    · rcases ih _ x hx with h | h
      · rcases List.mem_cons.mp h with h' | h'
        · exact Or.inr (h' ▸ h4.1)
        · exact Or.inl h'
      · exact Or.inr h
    · exact ih st x hx

theorem innerLoop_count (contacts : List Contact) (cn : String) :
    ∀ (cands rest : List Nat) (st : MergeState),
    (∀ j ∈ cands, j < contacts.length) →
    (∀ k, k < contacts.length → k ∈ st.processed ∨ k ∈ rest) →
    rest.Nodup →
    (innerLoop contacts cn cands st).mergeCount
      + (rest.filter (fun x => decide (x ∉ (innerLoop contacts cn cands st).processed))).length
    = st.mergeCount + (rest.filter (fun x => decide (x ∉ st.processed))).length := by
  intro cands
  induction cands with
  | nil => intro rest st _ _ _; simp [innerLoop]
  | cons c cs ih =>
    intro rest st hb hcov hnd
    have hb' : ∀ j ∈ cs, j < contacts.length := fun j hj => hb j (List.mem_cons_of_mem _ hj)
    simp only [innerLoop]
    split_ifs with h1 h2 h3 h4
    · exact ih rest st hb' hcov hnd
    · exact ih rest st hb' hcov hnd
    · exact ih rest st hb' hcov hnd
    · have hc : c ∈ rest := by
        rcases hcov c (hb c (List.mem_cons_self _ _)) with h | h
        · exact absurd h h1
        · exact h
      have hstep := ih rest ⟨foldInContact st.current (getContact contacts c),
        c :: st.processed, st.mergeCount + 1, st.absorbed ++ [c]⟩ hb'
        (fun k hk => by
          rcases hcov k hk with h | h
          · exact Or.inl (List.mem_cons_of_mem _ h)
          · exact Or.inr h) hnd
      have hfil := filter_not_mem_cons_length st.processed hc h1 hnd
      simp only at hstep
      omega
    · exact ih rest st hb' hcov hnd

theorem innerLoop_fold (contacts : List Contact) (cn : String) :
    ∀ (cands : List Nat) (st : MergeState),
    ∃ news : List Nat,
      (innerLoop contacts cn cands st).absorbed = st.absorbed ++ news ∧
      (innerLoop contacts cn cands st).current
        = (news.map (getContact contacts)).foldl foldInContact st.current ∧
      ∀ j ∈ news, j ∈ cands ∧ compName (getContact contacts j) ≠ "" := by
  intro cands
  induction cands with
  | nil =>
    intro st
    exact ⟨[], by simp [innerLoop], by simp [innerLoop], by simp⟩
  | cons c cs ih =>
    intro st
    simp only [innerLoop]
    split_ifs with h1 h2 h3 h4
    · obtain ⟨news, ha, hc', hm⟩ := ih st
      exact ⟨news, ha, hc', fun j hj => ⟨List.mem_cons_of_mem _ (hm j hj).1, (hm j hj).2⟩⟩
    · obtain ⟨news, ha, hc', hm⟩ := ih st
      exact ⟨news, ha, hc', fun j hj => ⟨List.mem_cons_of_mem _ (hm j hj).1, (hm j hj).2⟩⟩
    · obtain ⟨news, ha, hc', hm⟩ := ih st
      exact ⟨news, ha, hc', fun j hj => ⟨List.mem_cons_of_mem _ (hm j hj).1, (hm j hj).2⟩⟩
    · obtain ⟨news, ha, hc', hm⟩ := ih ⟨foldInContact st.current (getContact contacts c),
        c :: st.processed, st.mergeCount + 1, st.absorbed ++ [c]⟩
      refine ⟨c :: news, ?_, ?_, ?_⟩
      · simp only at ha
        rw [ha, List.append_assoc]
        rfl
      · simp only at hc'
        rw [hc']
        rfl
      · intro j hj
        rcases List.mem_cons.mp hj with h | h
        · subst h
          exact ⟨List.mem_cons_self _ _, h4.1⟩
        · exact ⟨List.mem_cons_of_mem _ (hm j h).1, (hm j h).2⟩
    · obtain ⟨news, ha, hc', hm⟩ := ih st
      exact ⟨news, ha, hc', fun j hj => ⟨List.mem_cons_of_mem _ (hm j hj).1, (hm j hj).2⟩⟩

/-- The email/phone compatibility invariant carried through the candidate
loop: every already-folded member with a truthy email (phone) agrees
with the accumulating record's email (phone). -/
def epInv (contacts : List Contact) (cur : Contact) (ms : List Nat) : Prop :=
  (∀ j ∈ ms, jsTruthy (getContact contacts j).email = true →
    cur.email = (getContact contacts j).email) ∧
  (∀ j ∈ ms, jsTruthy (getContact contacts j).phone = true →
    cur.phone = (getContact contacts j).phone)

theorem epInv_fold {contacts : List Contact} {cur : Contact} {ms : List Nat} {j : Nat}
    (hinv : epInv contacts cur ms)
    (hemail : ¬(jsTruthy cur.email = true ∧ jsTruthy (getContact contacts j).email = true ∧
      cur.email ≠ (getContact contacts j).email))
    (hphone : ¬(jsTruthy cur.phone = true ∧ jsTruthy (getContact contacts j).phone = true ∧
      cur.phone ≠ (getContact contacts j).phone)) :
    epInv contacts (foldInContact cur (getContact contacts j)) (ms ++ [j]) := by
  obtain ⟨hie, hip⟩ := hinv
  constructor
  · intro x hx htx
    rw [foldInContact_email]
    rcases List.mem_append.mp hx with hx' | hx'
    · have heq := hie x hx' htx
      by_cases hct : jsTruthy cur.email = true
      · have hcond : ¬(jsTruthy cur.email = false ∧
            jsTruthy (getContact contacts j).email = true) := by simp [hct]
        rw [if_neg hcond]
        exact heq
      · exact absurd (jsTruthy_eq_of_truthy heq htx) hct
    · simp only [List.mem_singleton] at hx'
      subst hx'
      by_cases hct : jsTruthy cur.email = true
      · have heq : cur.email = (getContact contacts x).email := by
          by_contra hne
          exact hemail ⟨hct, htx, hne⟩
        have hcond : ¬(jsTruthy cur.email = false ∧
            jsTruthy (getContact contacts x).email = true) := by simp [hct]
        rw [if_neg hcond]
        exact heq
      · have hcf : jsTruthy cur.email = false := by simpa using hct
        rw [if_pos ⟨hcf, htx⟩]
  · intro x hx htx
    rw [foldInContact_phone]
    rcases List.mem_append.mp hx with hx' | hx'
    · have heq := hip x hx' htx
      by_cases hct : jsTruthy cur.phone = true
      · have hcond : ¬(jsTruthy cur.phone = false ∧
            jsTruthy (getContact contacts j).phone = true) := by simp [hct]
        rw [if_neg hcond]
        exact heq
      · exact absurd (jsTruthy_eq_of_truthy heq htx) hct
    · simp only [List.mem_singleton] at hx'
      subst hx'
      by_cases hct : jsTruthy cur.phone = true
      · have heq : cur.phone = (getContact contacts x).phone := by
          by_contra hne
          exact hphone ⟨hct, htx, hne⟩
        have hcond : ¬(jsTruthy cur.phone = false ∧
            jsTruthy (getContact contacts x).phone = true) := by simp [hct]
        rw [if_neg hcond]
        exact heq
      · have hcf : jsTruthy cur.phone = false := by simpa using hct
        rw [if_pos ⟨hcf, htx⟩]

theorem innerLoop_epInv (contacts : List Contact) (cn : String) :
    ∀ (cands : List Nat) (st : MergeState) (ms : List Nat),
    epInv contacts st.current (ms ++ st.absorbed) →
    epInv contacts (innerLoop contacts cn cands st).current
      (ms ++ (innerLoop contacts cn cands st).absorbed) := by
  intro cands
  induction cands with
  | nil => intro st ms h; simpa [innerLoop] using h
  | cons c cs ih =>
    intro st ms h
    simp only [innerLoop]
    split_ifs with h1 h2 h3 h4
    · exact ih st ms h
    · exact ih st ms h
    · exact ih st ms h
    · refine ih ⟨foldInContact st.current (getContact contacts c),
        c :: st.processed, st.mergeCount + 1, st.absorbed ++ [c]⟩ ms ?_
      simp only
      rw [← List.append_assoc]
      exact epInv_fold h h2 h3
    · exact ih st ms h

/-- The invariant carried by every record emitted by the focused merge
pass, together with its ghost data `(absorber index, absorbed indices)`:
the record is the left fold of the absorbed candidates into the absorber
record; every member (absorber or absorbed) with a truthy email (phone)
agrees with the emitted record's email (phone); and every absorbed
candidate has a truthy comparison name sharing at least one significant
token with the absorber's comparison name. -/
def entryGood (contacts : List Contact) (e : Contact × Nat × List Nat) : Prop :=
  e.1 = (e.2.2.map (getContact contacts)).foldl foldInContact (getContact contacts e.2.1) ∧
  (∀ j ∈ e.2.1 :: e.2.2, jsTruthy (getContact contacts j).email = true →
    e.1.email = (getContact contacts j).email) ∧
  (∀ j ∈ e.2.1 :: e.2.2, jsTruthy (getContact contacts j).phone = true →
    e.1.phone = (getContact contacts j).phone) ∧
  ∀ j ∈ e.2.2, compName (getContact contacts j) ≠ "" ∧
    ∃ w, w ∈ contactSigWords (getContact contacts e.2.1) ∧
      w ∈ contactSigWords (getContact contacts j)

theorem entryGood_intro (contacts : List Contact) (rec : Contact) (i : Nat) (abs : List Nat)
    (h1 : rec = (abs.map (getContact contacts)).foldl foldInContact (getContact contacts i))
    (h2 : ∀ j ∈ i :: abs, jsTruthy (getContact contacts j).email = true →
      rec.email = (getContact contacts j).email)
    (h3 : ∀ j ∈ i :: abs, jsTruthy (getContact contacts j).phone = true →
      rec.phone = (getContact contacts j).phone)
    (h4 : ∀ j ∈ abs, compName (getContact contacts j) ≠ "" ∧
      ∃ w, w ∈ contactSigWords (getContact contacts i) ∧
        w ∈ contactSigWords (getContact contacts j)) :
    entryGood contacts (rec, i, abs) :=
  ⟨h1, h2, h3, h4⟩

theorem innerLoop_entryGood (contacts : List Contact) (cn : String) (cands : List Nat)
    (i : Nat) (p0 : List Nat) (m0 : Nat)
    (hcands : cands = collectCands contacts (sigWords cn) i (i :: p0))
    (hcn : contactSigWords (getContact contacts i) = sigWords cn) :
    entryGood contacts
      ((innerLoop contacts cn cands ⟨getContact contacts i, i :: p0, m0, []⟩).current, i,
       (innerLoop contacts cn cands ⟨getContact contacts i, i :: p0, m0, []⟩).absorbed) := by
  obtain ⟨news, ha, hc, hm⟩ :=
    innerLoop_fold contacts cn cands ⟨getContact contacts i, i :: p0, m0, []⟩
  have habs : (innerLoop contacts cn cands
      ⟨getContact contacts i, i :: p0, m0, []⟩).absorbed = news := by
    simpa using ha
  have hep := innerLoop_epInv contacts cn cands ⟨getContact contacts i, i :: p0, m0, []⟩ [i]
    (by
      constructor
      · intro x hx _
        simp only [List.append_nil, List.mem_singleton] at hx
        subst hx
        rfl
      · intro x hx _
        simp only [List.append_nil, List.mem_singleton] at hx
        subst hx
        rfl)
  refine entryGood_intro contacts _ i _ ?_ ?_ ?_ ?_
  · rw [hc, habs]
  · intro j hj htj
    refine hep.1 j ?_ htj
    rw [habs] at hj ⊢
    simpa using hj
  · intro j hj htj
    refine hep.2 j ?_ htj
    rw [habs] at hj ⊢
    simpa using hj
  · intro j hj
    rw [habs] at hj
    obtain ⟨hjc, hjn⟩ := hm j hj
    rw [hcands] at hjc
    obtain ⟨_, w, hw1, hw2⟩ := collectCands_spec hjc
    exact ⟨hjn, w, by rw [hcn]; exact hw1, hw2⟩

theorem outerLoop_entryGood (contacts : List Contact) :
    ∀ (is : List Nat) (st : OuterState),
    (∀ e ∈ st.log, entryGood contacts e) →
    ∀ e ∈ (outerLoop contacts is st).log, entryGood contacts e := by
  intro is
  induction is with
  | nil => intro st h e he; exact h e he
  | cons i rest ih =>
    intro st h e he
    simp only [outerLoop] at he
    split_ifs at he with h1 h2
    · exact ih st h e he
    · refine ih _ ?_ e he
      intro e' he'
      simp only [List.mem_append, List.mem_singleton] at he'
      rcases he' with he' | he'
      · exact h e' he'
      · subst he'
        refine entryGood_intro contacts _ i [] rfl ?_ ?_ (by simp)
        · intro j hj _
          simp only [List.mem_cons, List.not_mem_nil, or_false] at hj
          subst hj
          rfl
        · intro j hj _
          simp only [List.mem_cons, List.not_mem_nil, or_false] at hj
          subst hj
          rfl
    · refine ih _ ?_ e he
      intro e' he'
      simp only [stepState, List.mem_append, List.mem_singleton] at he'
      rcases he' with he' | he'
      · exact h e' he'
      · subst he'
        exact innerLoop_entryGood contacts _ _ i st.processed st.mergeCount rfl
          (by simp [contactSigWords, if_neg h2])

theorem mergeFocusedLog_entryGood (contacts : List Contact) :
    ∀ e ∈ (mergeFocusedLog contacts).log, entryGood contacts e := by
  intro e he
  exact outerLoop_entryGood contacts (List.range contacts.length) ⟨[], [], 0⟩
    (by intro e' he'; simp at he') e he

theorem stepInner_def (contacts : List Contact) (i : Nat) (st : OuterState) :
    stepInner contacts i st
      = innerLoop contacts (normalizeNameStr (compName (getContact contacts i)))
        (collectCands contacts
          (sigWords (normalizeNameStr (compName (getContact contacts i)))) i
          (i :: st.processed))
        ⟨getContact contacts i, i :: st.processed, st.mergeCount, []⟩ := rfl

theorem stepState_processed (contacts : List Contact) (i : Nat) (st : OuterState) :
    (stepState contacts i st).processed = (stepInner contacts i st).processed := by
  simp only [stepState]

theorem stepState_log (contacts : List Contact) (i : Nat) (st : OuterState) :
    (stepState contacts i st).log
      = st.log ++ [((stepInner contacts i st).current, i, (stepInner contacts i st).absorbed)] := by
  simp only [stepState]

theorem stepState_mergeCount (contacts : List Contact) (i : Nat) (st : OuterState) :
    (stepState contacts i st).mergeCount = (stepInner contacts i st).mergeCount := by
  simp only [stepState]

theorem outerLoop_count (contacts : List Contact) :
    ∀ (is : List Nat) (st : OuterState),
    (∀ k, k < contacts.length → k ∈ st.processed ∨ k ∈ is) → is.Nodup →
    (outerLoop contacts is st).log.length + (outerLoop contacts is st).mergeCount
      = st.log.length + st.mergeCount
        + (is.filter (fun x => decide (x ∉ st.processed))).length := by
  intro is
  induction is with
  | nil => intro st _ _; simp [outerLoop]
  | cons i rest ih =>
    intro st hcov hnd
    obtain ⟨hir, hnd'⟩ := List.nodup_cons.mp hnd
    simp only [outerLoop]
    split_ifs with h1 h2
    · rw [ih st (fun k hk => by
        rcases hcov k hk with h | h
        · exact Or.inl h
        · rcases List.mem_cons.mp h with h' | h'
          · exact Or.inl (h' ▸ h1)
          · exact Or.inr h') hnd']
      rw [List.filter_cons, if_neg (by simpa using h1)]
    · have hstep := ih ⟨i :: st.processed,
        st.log ++ [(getContact contacts i, i, [])], st.mergeCount⟩
        (fun k hk => by
          rcases hcov k hk with h | h
          · exact Or.inl (List.mem_cons_of_mem _ h)
          · rcases List.mem_cons.mp h with h' | h'
            · exact Or.inl (h' ▸ List.mem_cons_self _ _)
            · exact Or.inr h') hnd'
      simp only [List.length_append, List.length_singleton] at hstep
      rw [hstep, filter_not_mem_cons_of_not_mem st.processed hir,
        List.filter_cons, if_pos (by simpa using h1)]
      simp only [List.length_cons]
      omega
    · have hinner := innerLoop_count contacts
        (normalizeNameStr (compName (getContact contacts i)))
        (collectCands contacts
          (sigWords (normalizeNameStr (compName (getContact contacts i)))) i
          (i :: st.processed))
        rest ⟨getContact contacts i, i :: st.processed, st.mergeCount, []⟩
        (fun j hj => (collectCands_spec hj).1)
        (fun k hk => by
          rcases hcov k hk with h | h
          · exact Or.inl (List.mem_cons_of_mem _ h)
          · rcases List.mem_cons.mp h with h' | h'
            · exact Or.inl (h' ▸ List.mem_cons_self _ _)
            · exact Or.inr h') hnd'
      rw [← stepInner_def] at hinner
      have hinner' : (stepInner contacts i st).mergeCount
          + (rest.filter (fun x => decide (x ∉ (stepInner contacts i st).processed))).length
          = st.mergeCount
            + (rest.filter (fun x => decide (x ∉ i :: st.processed))).length := hinner
      rw [filter_not_mem_cons_of_not_mem st.processed hir] at hinner'
      have hstep := ih (stepState contacts i st)
        (fun k hk => by
          rcases hcov k hk with h | h
          · exact Or.inl (by
              rw [stepState_processed, stepInner_def]
              exact innerLoop_processed_mono contacts _ _ _ k
                (List.mem_cons_of_mem _ h))
          · rcases List.mem_cons.mp h with h' | h'
            · exact Or.inl (by
                rw [stepState_processed, stepInner_def]
                exact innerLoop_processed_mono contacts _ _ _ k
                  (h' ▸ List.mem_cons_self _ _))
            · exact Or.inr h') hnd'
      rw [stepState_mergeCount, stepState_processed,
        show (stepState contacts i st).log.length = st.log.length + 1 by
          rw [stepState_log]; simp] at hstep
      rw [hstep]
      rw [List.filter_cons, if_pos (by simpa using h1)]
      simp only [List.length_cons]
      omega

/-- Claim C2: the conservation law of the focused merge pass: the number
of emitted records plus the number of absorbed (merged) candidates
equals the number of input candidates. -/
theorem mergeFocused_conservation (contacts : List Contact) :
    (mergeSimilarContactsFocused contacts).length + (mergeFocusedLog contacts).mergeCount
      = contacts.length := by
  have h := outerLoop_count contacts (List.range contacts.length) ⟨[], [], 0⟩
    (fun k hk => Or.inr (List.mem_range.mpr hk)) (List.nodup_range _)
  simp only [List.length_nil, mergeFocusedLog] at h
  have hfil : ((List.range contacts.length).filter
      (fun x => decide (x ∉ ([] : List Nat)))) = List.range contacts.length := by
    refine List.filter_eq_self.mpr ?_
    intro a _
    simp
  rw [hfil, List.length_range] at h
  rw [mergeSimilarContactsFocused, List.length_map]
  simp only [mergeFocusedLog]
  omega

theorem outerLoop_log_mono (contacts : List Contact) :
    ∀ (is : List Nat) (st : OuterState),
    ∀ e ∈ st.log, e ∈ (outerLoop contacts is st).log := by
  intro is
  induction is with
  | nil => intro st e he; exact he
  | cons i rest ih =>
    intro st e he
    simp only [outerLoop]
    split_ifs
    · exact ih st e he
    · exact ih _ e (by simp only [List.mem_append]; exact Or.inl he)
    · refine ih _ e ?_
      rw [stepState_log]
      simp only [List.mem_append]
      exact Or.inl he

theorem outerLoop_reach (contacts : List Contact) :
    ∀ (is : List Nat) (st : OuterState) (k : Nat),
    k ∈ is → k ∉ st.processed → compName (getContact contacts k) = "" →
    (getContact contacts k, k, ([] : List Nat)) ∈ (outerLoop contacts is st).log := by
  intro is
  induction is with
  | nil => intro st k hk _ _; simp at hk
  | cons i rest ih =>
    intro st k hk hkp hkn
    by_cases hik : i = k
    · subst hik
      simp only [outerLoop]
      rw [if_neg hkp, if_pos hkn]
      refine outerLoop_log_mono contacts rest _ _ ?_
      simp only [List.mem_append, List.mem_singleton]
      exact Or.inr trivial
    · have hk' : k ∈ rest := by
        rcases List.mem_cons.mp hk with h | h
        · exact absurd h.symm hik
        · exact h
      simp only [outerLoop]
      split_ifs with h1 h2
      · exact ih st k hk' hkp hkn
      · refine ih _ k hk' ?_ hkn
        simp only [List.mem_cons]
        push_neg
        exact ⟨fun h => hik h.symm, hkp⟩
      · refine ih _ k hk' ?_ hkn
        rw [stepState_processed, stepInner_def]
        intro hmem
        rcases innerLoop_processed_src contacts _ _ _ k hmem with h | h
        · rcases List.mem_cons.mp h with h' | h'
          · exact hik h'.symm
          · exact hkp h'
        · exact h hkn

theorem outerLoop_unique_na (contacts : List Contact) :
    ∀ (is : List Nat) (st : OuterState) (k : Nat),
    compName (getContact contacts k) = "" →
    (∀ e ∈ st.log, e.2.1 = k → e = (getContact contacts k, k, ([] : List Nat))) →
    ∀ e ∈ (outerLoop contacts is st).log, e.2.1 = k →
      e = (getContact contacts k, k, ([] : List Nat)) := by
  intro is
  induction is with
  | nil => intro st k _ h e he hek; exact h e he hek
  | cons i rest ih =>
    intro st k hkn h e he hek
    simp only [outerLoop] at he
    split_ifs at he with h1 h2
    · exact ih st k hkn h e he hek
    · refine ih _ k hkn ?_ e he hek
      intro e' he' hek'
      simp only [List.mem_append, List.mem_singleton] at he'
      rcases he' with he' | he'
      · exact h e' he' hek'
      · subst he'
        simp only at hek'
        subst hek'
        rfl
    · refine ih _ k hkn ?_ e he hek
      intro e' he' hek'
      rw [stepState_log] at he'
      simp only [List.mem_append, List.mem_singleton] at he'
      rcases he' with he' | he'
      · exact h e' he' hek'
      · subst he'
        simp only at hek'
        subst hek'
        exact absurd hkn h2

theorem foldl_foldInContact_linkedin :
    ∀ (ms : List Contact) (b : Contact),
    (ms.foldl foldInContact b).linkedin_name
      = ms.foldl (fun a c => if c.linkedin_name ≠ "N/A" then c.linkedin_name else a)
          b.linkedin_name := by
  intro ms
  induction ms with
  | nil => intro b; rfl
  | cons c cs ih =>
    intro b
    simp only [List.foldl_cons]
    rw [ih, foldInContact_linkedin]

theorem foldl_foldInContact_phonebook :
    ∀ (ms : List Contact) (b : Contact),
    (ms.foldl foldInContact b).phonebook_name
      = ms.foldl (fun a c => if c.phonebook_name ≠ "N/A" then c.phonebook_name else a)
          b.phonebook_name := by
  intro ms
  induction ms with
  | nil => intro b; rfl
  | cons c cs ih =>
    intro b
    simp only [List.foldl_cons]
    rw [ih, foldInContact_phonebook]

theorem foldl_foldInContact_email_name :
    ∀ (ms : List Contact) (b : Contact),
    (ms.foldl foldInContact b).email_name
      = ms.foldl (fun a c => if c.email_name ≠ "N/A" then c.email_name else a)
          b.email_name := by
  intro ms
  induction ms with
  | nil => intro b; rfl
  | cons c cs ih =>
    intro b
    simp only [List.foldl_cons]
    rw [ih, foldInContact_email_name]

theorem foldl_foldInContact_email :
    ∀ (ms : List Contact) (b : Contact),
    (ms.foldl foldInContact b).email
      = ms.foldl (fun a c => if jsTruthy a = false ∧ jsTruthy c.email = true then c.email else a)
          b.email := by
  intro ms
  induction ms with
  | nil => intro b; rfl
  | cons c cs ih =>
    intro b
    simp only [List.foldl_cons]
    rw [ih, foldInContact_email]

theorem foldl_foldInContact_phone :
    ∀ (ms : List Contact) (b : Contact),
    (ms.foldl foldInContact b).phone
      = ms.foldl (fun a c => if jsTruthy a = false ∧ jsTruthy c.phone = true then c.phone else a)
          b.phone := by
  intro ms
  induction ms with
  | nil => intro b; rfl
  | cons c cs ih =>
    intro b
    simp only [List.foldl_cons]
    rw [ih, foldInContact_phone]

theorem contactLe_true_iff {a b : Contact} :
    contactLe a b = true
      ↔ sortScore a < sortScore b
        ∨ (sortScore a = sortScore b ∧ sortName a ≤ sortName b) := by
  by_cases h : sortScore a = sortScore b
  · simp [contactLe, h, lt_irrefl]
  · simp [contactLe, h]

theorem contactLe_trans (a b c : Contact) :
    contactLe a b → contactLe b c → contactLe a c := by
  intro hab hbc
  rw [contactLe_true_iff] at *
  rcases hab with h1 | ⟨h1, hn1⟩ <;> rcases hbc with h2 | ⟨h2, hn2⟩
  · exact Or.inl (lt_trans h1 h2)
  · exact Or.inl (h2 ▸ h1)
  · exact Or.inl (h1 ▸ h2)
  · exact Or.inr ⟨h1.trans h2, le_trans hn1 hn2⟩

theorem contactLe_total (a b : Contact) :
    contactLe a b || contactLe b a := by
  simp only [Bool.or_eq_true, contactLe_true_iff]
  by_cases h : sortScore a = sortScore b
  · rcases le_total (sortName a) (sortName b) with hn | hn
    · exact Or.inl (Or.inr ⟨h, hn⟩)
    · exact Or.inr (Or.inr ⟨h.symm, hn⟩)
  · rcases Nat.lt_or_ge (sortScore a) (sortScore b) with hs | hs
    · exact Or.inl (Or.inl hs)
    · exact Or.inr (Or.inl (by omega))

/-- Claim C1 counterexample: a non-'N/A' name field on the candidate
overwrites the absorber's already-populated field with a different
value.  Both contacts carry a non-'N/A' professional-network name, their
names are similar at threshold 0.7, and after the merge the absorber's
`linkedin_name` is the candidate's "John Smith Jr", not its original
"John Smith" — the last writer wins, not the first. -/
theorem mergeFocused_overwrite_counterexample :
    mergeSimilarContactsFocused
      [⟨"John Smith", "N/A", "N/A", none, none⟩,
       ⟨"John Smith Jr", "N/A", "N/A", none, none⟩]
      = [⟨"John Smith Jr", "N/A", "N/A", none, none⟩] ∧
    ("John Smith" : String) ≠ "N/A" ∧ ("John Smith Jr" : String) ≠ "John Smith" := by
  refine ⟨by decide, by decide, by decide⟩

/-- Claim C1 (amended): when candidates are folded into an absorber
during the name-similarity merge pass, each of the emitted record's
three name fields is the LAST non-'N/A' value in absorption order
(starting from the absorber's own value) — a candidate's non-'N/A' name
field overwrites the corresponding field whether or not it was already
populated — while email and phone are first-writer-wins: they are
backfilled from the first member carrying a truthy value and never
overwritten afterwards. -/
theorem mergeFocused_fold_fields (contacts : List Contact) (e : Contact × Nat × List Nat)
    (he : e ∈ (mergeFocusedLog contacts).log) :
    e.1.linkedin_name = (e.2.2.map (getContact contacts)).foldl
      (fun a c => if c.linkedin_name ≠ "N/A" then c.linkedin_name else a)
      (getContact contacts e.2.1).linkedin_name ∧
    e.1.phonebook_name = (e.2.2.map (getContact contacts)).foldl
      (fun a c => if c.phonebook_name ≠ "N/A" then c.phonebook_name else a)
      (getContact contacts e.2.1).phonebook_name ∧
    e.1.email_name = (e.2.2.map (getContact contacts)).foldl
      (fun a c => if c.email_name ≠ "N/A" then c.email_name else a)
      (getContact contacts e.2.1).email_name ∧
    e.1.email = (e.2.2.map (getContact contacts)).foldl
      (fun a c => if jsTruthy a = false ∧ jsTruthy c.email = true then c.email else a)
      (getContact contacts e.2.1).email ∧
    e.1.phone = (e.2.2.map (getContact contacts)).foldl
      (fun a c => if jsTruthy a = false ∧ jsTruthy c.phone = true then c.phone else a)
      (getContact contacts e.2.1).phone := by
  obtain ⟨h1, _, _, _⟩ := mergeFocusedLog_entryGood contacts e he
  rw [h1]
  exact ⟨foldl_foldInContact_linkedin _ _, foldl_foldInContact_phonebook _ _,
    foldl_foldInContact_email_name _ _, foldl_foldInContact_email _ _,
    foldl_foldInContact_phone _ _⟩

/-- Witness for `mergeFocused_fold_fields` on the two-record "John
Smith" / "John Smith Jr" input. -/
theorem mergeFocused_fold_fields_witness :
    (⟨"John Smith Jr", "N/A", "N/A", none, none⟩ : Contact).linkedin_name
      = (([1] : List Nat).map (getContact
          [⟨"John Smith", "N/A", "N/A", none, none⟩,
           ⟨"John Smith Jr", "N/A", "N/A", none, none⟩])).foldl
        (fun a c => if c.linkedin_name ≠ "N/A" then c.linkedin_name else a)
        (getContact [⟨"John Smith", "N/A", "N/A", none, none⟩,
           ⟨"John Smith Jr", "N/A", "N/A", none, none⟩] 0).linkedin_name :=
  (mergeFocused_fold_fields
    [⟨"John Smith", "N/A", "N/A", none, none⟩,
     ⟨"John Smith Jr", "N/A", "N/A", none, none⟩]
    (⟨"John Smith Jr", "N/A", "N/A", none, none⟩, 0, [1]) (by decide)).1

/-- Claim C3: the name-similarity merge pass never folds together two
candidates carrying different truthy emails, nor two candidates carrying
different truthy phones: any two members (absorber or absorbed) of one
emitted record's merge group with truthy emails (phones) have equal
emails (phones). -/
theorem mergeFocused_no_conflicting_ids (contacts : List Contact)
    (e : Contact × Nat × List Nat) (he : e ∈ (mergeFocusedLog contacts).log) :
    ∀ j ∈ e.2.1 :: e.2.2, ∀ k ∈ e.2.1 :: e.2.2,
      (jsTruthy (getContact contacts j).email = true →
        jsTruthy (getContact contacts k).email = true →
        (getContact contacts j).email = (getContact contacts k).email) ∧
      (jsTruthy (getContact contacts j).phone = true →
        jsTruthy (getContact contacts k).phone = true →
        (getContact contacts j).phone = (getContact contacts k).phone) := by
  obtain ⟨_, he1, hp1, _⟩ := mergeFocusedLog_entryGood contacts e he
  intro j hj k hk
  constructor
  · intro hje hke
    rw [← he1 j hj hje, ← he1 k hk hke]
  · intro hjp hkp
    rw [← hp1 j hj hjp, ← hp1 k hk hkp]

/-- Witness for `mergeFocused_no_conflicting_ids` on a two-record group
merged by name similarity with equal emails. -/
theorem mergeFocused_no_conflicting_ids_witness :
    (getContact [⟨"John Smith", "N/A", "N/A", some "a@x.com", none⟩,
        ⟨"John Smith Jr", "N/A", "N/A", some "a@x.com", none⟩] 0).email
      = (getContact [⟨"John Smith", "N/A", "N/A", some "a@x.com", none⟩,
        ⟨"John Smith Jr", "N/A", "N/A", some "a@x.com", none⟩] 1).email :=
  ((mergeFocused_no_conflicting_ids
      [⟨"John Smith", "N/A", "N/A", some "a@x.com", none⟩,
       ⟨"John Smith Jr", "N/A", "N/A", some "a@x.com", none⟩]
      (⟨"John Smith Jr", "N/A", "N/A", some "a@x.com", none⟩, 0, [1]) (by decide))
    0 (by decide) 1 (by decide)).1 (by decide) (by decide)

/-- Claim C9 counterexample: the inverted-index pass and the exhaustive
pairwise pass do not produce the same output.  "Johnathan" and
"Jonathan" are Levenshtein-similar (8/9 ≥ 0.8) but share no exact
significant token, so the posting lists never bring them together: the
focused pass emits two records where the exhaustive pass merges them
into one. -/
theorem mergeFocused_not_refinement :
    (mergeSimilarContactsFocused
      [⟨"Johnathan", "N/A", "N/A", none, none⟩,
       ⟨"Jonathan", "N/A", "N/A", none, none⟩]).length = 2 ∧
    (mergeSimilarContacts
      [⟨"Johnathan", "N/A", "N/A", none, none⟩,
       ⟨"Jonathan", "N/A", "N/A", none, none⟩]).length = 1 ∧
    mergeSimilarContactsFocused
      [⟨"Johnathan", "N/A", "N/A", none, none⟩,
       ⟨"Jonathan", "N/A", "N/A", none, none⟩]
      ≠ mergeSimilarContacts
      [⟨"Johnathan", "N/A", "N/A", none, none⟩,
       ⟨"Jonathan", "N/A", "N/A", none, none⟩] := by
  refine ⟨by decide, by decide, by decide⟩

/-- Claim C9 (amended): the inverted index is a pruning device, not a
behaviour-preserving optimization: the focused pass only ever folds in a
candidate that shares at least one exact significant (length > 2) token
with the absorber's comparison name, so inputs whose similar names share
no exact token (e.g. single-token names differing by one letter) are
merged by the exhaustive pairwise pass but not by the focused pass. -/
theorem mergeFocused_absorbed_share_token (contacts : List Contact)
    (e : Contact × Nat × List Nat) (he : e ∈ (mergeFocusedLog contacts).log) :
    ∀ j ∈ e.2.2, compName (getContact contacts j) ≠ "" ∧
      ∃ w, w ∈ contactSigWords (getContact contacts e.2.1) ∧
        w ∈ contactSigWords (getContact contacts j) :=
  (mergeFocusedLog_entryGood contacts e he).2.2.2

/-- Witness for `mergeFocused_absorbed_share_token` on the "John Smith"
/ "John Smith Jr" merge group. -/
theorem mergeFocused_absorbed_share_token_witness :
    compName (getContact [⟨"John Smith", "N/A", "N/A", none, none⟩,
        ⟨"John Smith Jr", "N/A", "N/A", none, none⟩] 1) ≠ "" ∧
    ∃ w, w ∈ contactSigWords (getContact [⟨"John Smith", "N/A", "N/A", none, none⟩,
        ⟨"John Smith Jr", "N/A", "N/A", none, none⟩] 0) ∧
      w ∈ contactSigWords (getContact [⟨"John Smith", "N/A", "N/A", none, none⟩,
        ⟨"John Smith Jr", "N/A", "N/A", none, none⟩] 1) :=
  mergeFocused_absorbed_share_token
    [⟨"John Smith", "N/A", "N/A", none, none⟩,
     ⟨"John Smith Jr", "N/A", "N/A", none, none⟩]
    (⟨"John Smith Jr", "N/A", "N/A", none, none⟩, 0, [1]) (by decide) 1 (by decide)

/-- Claim C10: a candidate whose three name slots are all the sentinel
'N/A' has no comparison name, so during the similarity-merge pass it is
emitted exactly as it entered (its log entry is its own record with no
absorbed candidates), it never absorbs a candidate (any entry logged
with it as absorber is that pristine entry), and it is never absorbed by
another record (it appears in no entry's absorbed list). -/
theorem mergeFocused_na_passthrough (contacts : List Contact) (k : Nat)
    (hk : k < contacts.length)
    (hl : (getContact contacts k).linkedin_name = "N/A")
    (hp : (getContact contacts k).phonebook_name = "N/A")
    (hen : (getContact contacts k).email_name = "N/A") :
    (getContact contacts k, k, ([] : List Nat)) ∈ (mergeFocusedLog contacts).log ∧
    getContact contacts k ∈ mergeSimilarContactsFocused contacts ∧
    (∀ e ∈ (mergeFocusedLog contacts).log, k ∉ e.2.2) ∧
    (∀ e ∈ (mergeFocusedLog contacts).log, e.2.1 = k →
      e = (getContact contacts k, k, ([] : List Nat))) := by
  have hkn : compName (getContact contacts k) = "" := compName_na hl hp hen
  have hmem : (getContact contacts k, k, ([] : List Nat)) ∈ (mergeFocusedLog contacts).log :=
    outerLoop_reach contacts (List.range contacts.length) ⟨[], [], 0⟩ k
      (List.mem_range.mpr hk) (by simp) hkn
  refine ⟨hmem, ?_, ?_, ?_⟩
  · exact List.mem_map.mpr ⟨_, hmem, rfl⟩
  · intro e he' hke
    obtain ⟨_, _, _, h4⟩ := mergeFocusedLog_entryGood contacts e he'
    exact (h4 k hke).1 hkn
  · intro e he' hek
    exact outerLoop_unique_na contacts (List.range contacts.length) ⟨[], [], 0⟩ k hkn
      (by intro e' he''; simp at he'') e he' hek

/-- Witness for `mergeFocused_na_passthrough` on a two-record input whose
first record is all-'N/A'. -/
theorem mergeFocused_na_passthrough_witness :
    (getContact [⟨"N/A", "N/A", "N/A", some "x@y.com", none⟩,
        ⟨"Alice Jones", "N/A", "N/A", none, none⟩] 0, 0, ([] : List Nat))
      ∈ (mergeFocusedLog [⟨"N/A", "N/A", "N/A", some "x@y.com", none⟩,
        ⟨"Alice Jones", "N/A", "N/A", none, none⟩]).log :=
  (mergeFocused_na_passthrough
    [⟨"N/A", "N/A", "N/A", some "x@y.com", none⟩,
     ⟨"Alice Jones", "N/A", "N/A", none, none⟩] 0
    (by decide) (by decide) (by decide) (by decide)).1

/-- Claim C8: the final sort orders records by priority score (1 for a
professional-network name, 2 for a phone-book-only name, 3 for an
email-derived name only) ascending, and within equal priority
lexicographically ascending by the name used for scoring; the sorted
sequence is a permutation of the input. -/
theorem sortContacts_sorted (l : List Contact) :
    (sortContacts l).Pairwise (fun a b => sortScore a < sortScore b ∨
      (sortScore a = sortScore b ∧ sortName a ≤ sortName b)) ∧
    (sortContacts l).Perm l := by
  constructor
  · have h := List.sorted_mergeSort contactLe_trans contactLe_total l
    exact h.imp (fun hab => contactLe_true_iff.mp hab)
  · exact List.mergeSort_perm l contactLe
